import Mathlib

/-!
Shallow embedding of the Ferrite image viewer core (src/app.rs):
the LRU decoded-image cache, the view-controller state, load
orchestration, file-drop filtering and the render-time zoom/texture
logic, together with proofs of the behavioural properties of the code.
-/

namespace Ferrite

/-- Canonical image path (Rust PathBuf, compared exactly). -/
abbrev Path := String

/-- Opaque decoded pixel buffer (Rust image::DynamicImage); only its
identity matters to the cache and view logic, so it is abstracted to Nat. -/
abbrev Image := Nat

/-! ## The LRU cache (lru crate semantics)

Entries are kept in recency order: head is most recently used, tail is
least recently used. -/

structure LruCache (K V : Type) where
  cap : Nat
  entries : List (K × V)
deriving DecidableEq

variable {K V : Type} [DecidableEq K]

/-- Value associated to a key, if present. -/
def lookup (k : K) (l : List (K × V)) : Option V :=
  (l.find? (fun e => decide (e.1 = k))).map (·.2)

/-- Drop every entry with the given key. -/
def removeKey (k : K) (l : List (K × V)) : List (K × V) :=
  l.filter (fun e => decide (e.1 ≠ k))

/-- LruCache::get - on a hit, promotes the entry to most recently used
and returns its value; a miss has no side effect. -/
def LruCache.getOp (c : LruCache K V) (k : K) : Option V × LruCache K V :=
  match lookup k c.entries with
  | none => (none, c)
  | some v => (some v, { c with entries := (k, v) :: removeKey k c.entries })

/-- LruCache::put - updates and promotes an existing key, or inserts a
new key, first evicting the least recently used entry when full. -/
def LruCache.put (c : LruCache K V) (k : K) (v : V) : LruCache K V :=
  if (lookup k c.entries).isSome then
    { c with entries := (k, v) :: removeKey k c.entries }
  else if c.entries.length = c.cap then
    { c with entries := (k, v) :: c.entries.dropLast }
  else
    { c with entries := (k, v) :: c.entries }

/-- A get or put request against the cache. -/
inductive CacheOp (K V : Type) where
  | get (k : K)
  | put (k : K) (v : V)

/-- One cache operation, forgetting get results. -/
def stepOp (c : LruCache K V) : CacheOp K V → LruCache K V
  | .get k => (c.getOp k).2
  | .put k v => c.put k v

/-- Run a sequence of cache operations. -/
def runOps (c : LruCache K V) (ops : List (CacheOp K V)) : LruCache K V :=
  ops.foldl stepOp c

/-! ## The application state (struct FeriteApp) -/

/-- 2D vector (egui::Vec2), with exact rationals in place of f32. -/
structure Vec2 where
  x : ℚ
  y : ℚ
deriving DecidableEq

def Vec2.ZERO : Vec2 := ⟨0, 0⟩

/-- A GPU texture handle; modelled by the pixel content it was
synthesized from. -/
abbrev TextureHandle := Image

/-- struct ImageData: the displayed image and its lazily created texture. -/
structure ImageData where
  texture : Option TextureHandle
  original : Image
deriving DecidableEq

/-- struct FeriteApp. -/
structure FeriteApp where
  image_cache : LruCache Path Image
  current_image : Option ImageData
  current_path : Option Path
  zoom_level : ℚ
  drag_offset : Vec2
  show_performance : Bool
deriving DecidableEq

/-- impl Default for FeriteApp: cache capacity 5, empty view, identity
transform. -/
def FeriteApp.default : FeriteApp :=
  { image_cache := { cap := 5, entries := [] }
    current_image := none
    current_path := none
    zoom_level := 1
    drag_offset := Vec2.ZERO
    show_performance := false }

/-! ## Load orchestration (FeriteApp::load_image)

The decode collaborator (image::open) is passed as an oracle
decode : Path -> Option Image; the result records which branch ran and
how many times decode was invoked. -/

/-- Which branch of load_image ran (observable through its log lines). -/
inductive LoadOutcome where
  | hitDisplayed
  | decodedDisplayed
  | decodeFailed
deriving DecidableEq

structure LoadResult where
  app : FeriteApp
  outcome : LoadOutcome
  decodeCalls : Nat
deriving DecidableEq

/-- FeriteApp::load_image. On a cache hit the cached image is cloned
into current_image and the texture cleared; on a miss the image is
decoded, inserted, displayed and the view transform reset; on decode
failure nothing changes. -/
def FeriteApp.load_image (decode : Path → Option Image) (self : FeriteApp)
    (path : Path) : LoadResult :=
  match self.image_cache.getOp path with
  | (some img, cache) =>
      { app := { self with
            image_cache := cache
            current_image := some { texture := none, original := img }
            current_path := some path }
        outcome := .hitDisplayed
        decodeCalls := 0 }
  | (none, _) =>
      match decode path with
      | some img =>
          { app := { self with
                image_cache := self.image_cache.put path img
                current_image := some { texture := none, original := img }
                current_path := some path
                zoom_level := 1
                drag_offset := Vec2.ZERO }
            outcome := .decodedDisplayed
            decodeCalls := 1 }
      | none =>
          { app := self, outcome := .decodeFailed, decodeCalls := 1 }

/-- FeriteApp::new: loads the initial image only after checking that the
path exists on the filesystem. -/
def FeriteApp.new (decode : Path → Option Image) (exists_fs : Path → Bool)
    (initial_image : Option Path) : FeriteApp :=
  match initial_image with
  | some path =>
      if exists_fs path then (FeriteApp.default.load_image decode path).app
      else FeriteApp.default
  | none => FeriteApp.default

/-! ## File-drop filtering (FeriteApp::handle_files_dropped) -/

/-- The file-name component of a path: the characters after the last
slash (Rust Path::file_name, for well-formed file paths). -/
def fileName (p : String) : List Char :=
  (p.toList.reverse.takeWhile (fun c => decide (c ≠ '/'))).reverse

/-- The extension of a file name: the characters after the last dot,
none when there is no dot or when the only dot is the leading one
(Rust Path::extension). -/
def extensionChars (f : List Char) : Option (List Char) :=
  let r := f.reverse
  let e := r.takeWhile (fun c => decide (c ≠ '.'))
  match r.dropWhile (fun c => decide (c ≠ '.')) with
  | [] => none
  | _ :: stem => if stem = [] then none else some e.reverse

/-- Rust Path::extension on a path, as a string. -/
def extension (p : String) : Option String :=
  (extensionChars (fileName p)).map (fun cs => String.mk cs)

/-- ASCII case folding of a character (str::to_lowercase restricted to
the ASCII range, which covers every extension in the allow-list). -/
def lowerChar (c : Char) : Char :=
  match c with
  | 'A' => 'a' | 'B' => 'b' | 'C' => 'c' | 'D' => 'd' | 'E' => 'e'
  | 'F' => 'f' | 'G' => 'g' | 'H' => 'h' | 'I' => 'i' | 'J' => 'j'
  | 'K' => 'k' | 'L' => 'l' | 'M' => 'm' | 'N' => 'n' | 'O' => 'o'
  | 'P' => 'p' | 'Q' => 'q' | 'R' => 'r' | 'S' => 's' | 'T' => 't'
  | 'U' => 'u' | 'V' => 'v' | 'W' => 'w' | 'X' => 'x' | 'Y' => 'y'
  | 'Z' => 'z' | other => other

/-- str::to_lowercase on an extension string. -/
def toLowercase (s : String) : String := String.mk (s.toList.map lowerChar)

/-- The fixed allow-list of image extensions. -/
def SUPPORTED_EXTENSIONS : List String := ["jpg", "jpeg", "png", "gif", "bmp"]

/-- FeriteApp::handle_files_dropped: only the first dropped path is
considered, and it is loaded only when its lowercased extension is in
the allow-list. -/
def FeriteApp.handle_files_dropped (decode : Path → Option Image)
    (self : FeriteApp) (files : List Path) : FeriteApp :=
  match files.head? with
  | none => self
  | some path =>
      match extension path with
      | none => self
      | some e =>
          if SUPPORTED_EXTENSIONS.contains (toLowercase e) then
            (self.load_image decode path).app
          else self

/-! ## Render pass (FeriteApp::render_image) -/

/-- f32::clamp with lo <= hi. -/
def clampQ (x lo hi : ℚ) : ℚ := max lo (min x hi)

/-- The zoom part of render_image: on a non-zero scroll delta the zoom
level is multiplied by 1 - delta * 0.001 and clamped to [0.1, 10]; with
a known pointer position the offset is compensated so the point under
the pointer stays fixed. -/
def FeriteApp.applyScroll (self : FeriteApp) (scroll_delta : ℚ)
    (pointer : Option Vec2) (screen_center : Vec2) : FeriteApp :=
  if scroll_delta ≠ 0 then
    let zoom_factor := 1 - scroll_delta * (1 / 1000)
    let new_zoom := self.zoom_level * zoom_factor
    match pointer with
    | some pointer_pos =>
        { self with
          zoom_level := clampQ new_zoom (1 / 10) 10
          drag_offset :=
            ⟨(pointer_pos.x - screen_center.x) * (1 - zoom_factor) + self.drag_offset.x,
             (pointer_pos.y - screen_center.y) * (1 - zoom_factor) + self.drag_offset.y⟩ }
    | none => { self with zoom_level := clampQ new_zoom (1 / 10) 10 }
  else self

/-- The texture part of render_image: when an image is displayed and its
texture is absent, the texture is synthesized from
current_image.original (the clone retained at load time). -/
def FeriteApp.synthesizeTexture (self : FeriteApp) : FeriteApp :=
  match self.current_image with
  | none => self
  | some image_data =>
      match image_data.texture with
      | some _ => self
      | none =>
          let image_data' : ImageData :=
            { image_data with texture := some image_data.original }
          { self with current_image := some image_data' }

/-- The drag part of render_image: while an image is displayed, an
active drag accumulates its delta into the offset. -/
def FeriteApp.applyDrag (self : FeriteApp) (drag_delta : Option Vec2) : FeriteApp :=
  match self.current_image, drag_delta with
  | some _, some d =>
      { self with drag_offset := ⟨self.drag_offset.x + d.x, self.drag_offset.y + d.y⟩ }
  | _, _ => self

/-- FeriteApp::render_image: zoom handling, then lazy texture creation,
then drag handling. -/
def FeriteApp.render_image (self : FeriteApp) (scroll_delta : ℚ)
    (pointer : Option Vec2) (screen_center : Vec2)
    (drag_delta : Option Vec2) : FeriteApp :=
  ((self.applyScroll scroll_delta pointer screen_center).synthesizeTexture).applyDrag
    drag_delta

/-! ## Ghost-instrumented cache runs

To state that eviction removes the entry untouched longest, runs are
instrumented with a ghost clock and, per key, the time of its last
touch (put, or get hit). The instrumentation does not alter the cache
behaviour (stepT_cache below). -/

structure TLru (K V : Type) where
  cache : LruCache K V
  clock : Nat
  touch : K → Nat

def stepT (s : TLru K V) : CacheOp K V → TLru K V
  | .get k =>
      match lookup k s.cache.entries with
      | none => { s with clock := s.clock + 1 }
      | some _ =>
          { cache := (s.cache.getOp k).2
            clock := s.clock + 1
            touch := fun k' => if k' = k then s.clock else s.touch k' }
  | .put k v =>
      { cache := s.cache.put k v
        clock := s.clock + 1
        touch := fun k' => if k' = k then s.clock else s.touch k' }

def runT (s : TLru K V) (ops : List (CacheOp K V)) : TLru K V :=
  ops.foldl stepT s

def initT (cap : Nat) : TLru K V :=
  { cache := { cap := cap, entries := [] }, clock := 1, touch := fun _ => 0 }

/-- Recency invariant: entries are ordered by strictly decreasing
last-touch time, and every touch time is in the past. -/
def goodT (s : TLru K V) : Prop :=
  s.cache.entries.Pairwise (fun a b => s.touch b.1 < s.touch a.1) ∧
  ∀ e ∈ s.cache.entries, s.touch e.1 < s.clock

/-! ## Basic cache lemmas -/

theorem mem_removeKey {k : K} {e : K × V} {l : List (K × V)} :
    e ∈ removeKey k l ↔ e ∈ l ∧ e.1 ≠ k := by
  simp [removeKey, List.mem_filter]

theorem lookup_isSome_iff {k : K} {l : List (K × V)} :
    (lookup k l).isSome ↔ ∃ w, (k, w) ∈ l := by
  constructor
  · intro h
    cases hf : List.find? (fun e => decide (e.1 = k)) l with
    | none => simp [lookup, hf] at h
    | some e =>
        obtain ⟨a, b⟩ := e
        have hmem := List.mem_of_find?_eq_some hf
        have hk : a = k := by simpa using List.find?_some hf
        exact ⟨b, hk ▸ hmem⟩
  · rintro ⟨w, hw⟩
    cases hf : List.find? (fun e => decide (e.1 = k)) l with
    | some e => simp [lookup, hf]
    | none =>
        rw [List.find?_eq_none] at hf
        exact absurd (by simp : decide (((k, w) : K × V).1 = k) = true)
          (hf (k, w) hw)

theorem lookup_none_forall {k : K} {l : List (K × V)}
    (h : lookup k l = none) : ∀ e ∈ l, e.1 ≠ k := by
  intro e he
  cases hf : List.find? (fun e => decide (e.1 = k)) l with
  | some x => simp [lookup, hf] at h
  | none =>
      rw [List.find?_eq_none] at hf
      simpa using hf e he

theorem length_removeKey_lt_of_mem {k : K} {w : V} {l : List (K × V)}
    (hw : (k, w) ∈ l) : (removeKey k l).length < l.length := by
  induction l with
  | nil => cases hw
  | cons e t ih =>
      by_cases hek : e.1 = k
      · have heq : removeKey k (e :: t) = removeKey k t := by
          simp [removeKey, List.filter_cons, hek]
        rw [heq]
        exact Nat.lt_succ_of_le (List.length_filter_le _ t)
      · have heq : removeKey k (e :: t) = e :: removeKey k t := by
          simp [removeKey, List.filter_cons, hek]
        rw [heq]
        have hwt : (k, w) ∈ t := by
          rcases List.mem_cons.mp hw with h1 | h2
          · exact absurd (by rw [← h1]) hek
          · exact h2
        simpa using ih hwt

theorem length_removeKey_lt {k : K} {l : List (K × V)}
    (h : (lookup k l).isSome) : (removeKey k l).length < l.length := by
  rcases lookup_isSome_iff.mp h with ⟨w, hw⟩
  exact length_removeKey_lt_of_mem hw

theorem cap_stepOp (c : LruCache K V) (op : CacheOp K V) :
    (stepOp c op).cap = c.cap := by
  cases op with
  | get k =>
      simp only [stepOp, LruCache.getOp]
      cases lookup k c.entries <;> rfl
  | put k v =>
      simp only [stepOp, LruCache.put]
      by_cases h1 : (lookup k c.entries).isSome
      · simp [h1]
      · by_cases h2 : c.entries.length = c.cap <;> simp [h1, h2]

theorem length_stepOp (c : LruCache K V) (op : CacheOp K V)
    (hcap : 1 ≤ c.cap) (h : c.entries.length ≤ c.cap) :
    (stepOp c op).entries.length ≤ c.cap := by
  cases op with
  | get k =>
      simp only [stepOp, LruCache.getOp]
      cases hl : lookup k c.entries with
      | none => exact h
      | some v =>
          simp only [List.length_cons]
          have := length_removeKey_lt (l := c.entries) (k := k) (by simp [hl])
          omega
  | put k v =>
      simp only [stepOp, LruCache.put]
      cases h1 : (lookup k c.entries).isSome with
      | true =>
          simp only [h1, if_true, List.length_cons]
          have := length_removeKey_lt (l := c.entries) (k := k) (by simp [h1])
          omega
      | false =>
          by_cases h2 : c.entries.length = c.cap
          · simp only [h1, h2, Bool.false_eq_true, if_false, if_true,
              List.length_cons, List.length_dropLast]
            omega
          · simp only [h1, h2, Bool.false_eq_true, if_false, List.length_cons]
            omega

theorem length_runOps (ops : List (CacheOp K V)) (c : LruCache K V)
    (hcap : 1 ≤ c.cap) (h : c.entries.length ≤ c.cap) :
    (runOps c ops).entries.length ≤ c.cap := by
  induction ops generalizing c with
  | nil => exact h
  | cons op ops ih =>
      have hcap' := cap_stepOp c op
      have := ih (stepOp c op) (hcap' ▸ hcap) (hcap' ▸ length_stepOp c op hcap h)
      simpa [runOps, hcap'] using this

/-! ## Recency invariant preservation -/

theorem promote_invariant {touch : K → Nat} {clock : Nat}
    {entries l' : List (K × V)} {k : K} (v : V)
    (hpw : entries.Pairwise (fun a b => touch b.1 < touch a.1))
    (hb : ∀ e ∈ entries, touch e.1 < clock)
    (hsub : List.Sublist l' entries) (hne : ∀ e ∈ l', e.1 ≠ k) :
    ((k, v) :: l').Pairwise
        (fun a b => (if b.1 = k then clock else touch b.1) <
          (if a.1 = k then clock else touch a.1)) ∧
      ∀ e ∈ (k, v) :: l',
        (if e.1 = k then clock else touch e.1) < clock + 1 := by
  constructor
  · rw [List.pairwise_cons]
    constructor
    · intro e he
      rw [if_neg (hne e he), if_pos rfl]
      exact hb e (hsub.subset he)
    · exact (hpw.sublist hsub).imp_of_mem
        (fun ha hb' hab => by
          rw [if_neg (hne _ ha), if_neg (hne _ hb')]; exact hab)
  · intro e he
    rcases List.mem_cons.mp he with h1 | h2
    · rw [h1, if_pos rfl]
      omega
    · rw [if_neg (hne e h2)]
      exact Nat.lt_succ_of_lt (hb e (hsub.subset h2))

/-- The ghost instrumentation does not change the cache behaviour. -/
theorem stepT_cache (s : TLru K V) (op : CacheOp K V) :
    (stepT s op).cache = stepOp s.cache op := by
  cases op with
  | get k =>
      simp only [stepT, stepOp, LruCache.getOp]
      cases lookup k s.cache.entries <;> rfl
  | put k v => rfl

theorem runT_cache (s : TLru K V) (ops : List (CacheOp K V)) :
    (runT s ops).cache = runOps s.cache ops := by
  induction ops generalizing s with
  | nil => rfl
  | cons op ops ih =>
      show (runT (stepT s op) ops).cache = runOps (stepOp s.cache op) ops
      rw [ih, stepT_cache]

theorem goodT_promote (s : TLru K V) (k : K) (v : V) (l' : List (K × V))
    (hsub : List.Sublist l' s.cache.entries) (hne : ∀ e ∈ l', e.1 ≠ k)
    (h : goodT s) (cap' : Nat) :
    goodT { cache := { cap := cap', entries := (k, v) :: l' }
            clock := s.clock + 1
            touch := fun k' => if k' = k then s.clock else s.touch k' } := by
  obtain ⟨hpw, hb⟩ := h
  have hmain := promote_invariant v hpw hb hsub hne
  exact ⟨hmain.1, hmain.2⟩

theorem goodT_stepT (s : TLru K V) (op : CacheOp K V) (h : goodT s) :
    goodT (stepT s op) := by
  obtain ⟨hpw, hb⟩ := h
  cases op with
  | get k =>
      cases hl : lookup k s.cache.entries with
      | none =>
          have hstep : stepT s (.get k) = { s with clock := s.clock + 1 } := by
            simp [stepT, hl]
          rw [hstep]
          exact ⟨hpw, fun e he => Nat.lt_succ_of_lt (hb e he)⟩
      | some v =>
          have hstep : stepT s (.get k) =
              { cache := { cap := s.cache.cap
                           entries := (k, v) :: removeKey k s.cache.entries }
                clock := s.clock + 1
                touch := fun k' => if k' = k then s.clock else s.touch k' } := by
            simp [stepT, LruCache.getOp, hl]
          rw [hstep]
          exact goodT_promote s k v _ (List.filter_sublist _)
            (fun e he => (mem_removeKey.mp he).2) ⟨hpw, hb⟩ _
  | put k v =>
      cases h1 : (lookup k s.cache.entries).isSome with
      | true =>
          have hstep : stepT s (.put k v) =
              { cache := { cap := s.cache.cap
                           entries := (k, v) :: removeKey k s.cache.entries }
                clock := s.clock + 1
                touch := fun k' => if k' = k then s.clock else s.touch k' } := by
            simp [stepT, LruCache.put, h1]
          rw [hstep]
          exact goodT_promote s k v _ (List.filter_sublist _)
            (fun e he => (mem_removeKey.mp he).2) ⟨hpw, hb⟩ _
      | false =>
          have hnone : lookup k s.cache.entries = none := by
            cases hl : lookup k s.cache.entries
            · rfl
            · rw [hl] at h1; cases h1
          have hne0 : ∀ e ∈ s.cache.entries, e.1 ≠ k := lookup_none_forall hnone
          by_cases h2 : s.cache.entries.length = s.cache.cap
          · have hstep : stepT s (.put k v) =
                { cache := { cap := s.cache.cap
                             entries := (k, v) :: s.cache.entries.dropLast }
                  clock := s.clock + 1
                  touch := fun k' => if k' = k then s.clock else s.touch k' } := by
              simp [stepT, LruCache.put, h1, h2]
            rw [hstep]
            exact goodT_promote s k v _ (List.dropLast_sublist _)
              (fun e he => hne0 e ((List.dropLast_sublist _).subset he)) ⟨hpw, hb⟩ _
          · have hstep : stepT s (.put k v) =
                { cache := { cap := s.cache.cap
                             entries := (k, v) :: s.cache.entries }
                  clock := s.clock + 1
                  touch := fun k' => if k' = k then s.clock else s.touch k' } := by
              simp [stepT, LruCache.put, h1, h2]
            rw [hstep]
            exact goodT_promote s k v _ (List.Sublist.refl _) hne0 ⟨hpw, hb⟩ _

theorem goodT_initT (cap : Nat) : goodT (initT (K := K) (V := V) cap) :=
  ⟨List.Pairwise.nil, fun e he => absurd he (List.not_mem_nil e)⟩

theorem goodT_runT (ops : List (CacheOp K V)) (s : TLru K V) (h : goodT s) :
    goodT (runT s ops) := by
  induction ops generalizing s with
  | nil => exact h
  | cons op ops ih => exact ih (stepT s op) (goodT_stepT s op h)

/-- In a state satisfying the recency invariant, the tail entry is the
one touched longest ago. -/
theorem getLast_touch_min {s : TLru K V} (h : goodT s)
    (hne : s.cache.entries ≠ []) :
    ∀ e ∈ s.cache.entries.dropLast,
      s.touch (s.cache.entries.getLast hne).1 < s.touch e.1 := by
  intro e he
  have hpw := h.1
  rw [← List.dropLast_append_getLast hne] at hpw
  rcases List.pairwise_append.mp hpw with ⟨_, _, hrel⟩
  exact hrel e he _ (List.mem_singleton.mpr rfl)

theorem cap_runOps (ops : List (CacheOp K V)) (c : LruCache K V) :
    (runOps c ops).cap = c.cap := by
  induction ops generalizing c with
  | nil => rfl
  | cons op ops ih =>
      show (runOps (stepOp c op) ops).cap = c.cap
      rw [ih, cap_stepOp]

theorem put_full_new {c : LruCache K V} {k : K} (v : V)
    (hmiss : lookup k c.entries = none)
    (hfull : c.entries.length = c.cap) :
    (c.put k v).entries = (k, v) :: c.entries.dropLast := by
  have h1 : (lookup k c.entries).isSome = false := by rw [hmiss]; rfl
  simp [LruCache.put, h1, hfull]

theorem put_mem_iff {c : LruCache K V} {k : K} (v : V)
    (h : (lookup k c.entries).isSome) (k' : K) :
    (∃ w, (k', w) ∈ c.entries) ↔ ∃ w, (k', w) ∈ (c.put k v).entries := by
  have hput : (c.put k v).entries = (k, v) :: removeKey k c.entries := by
    simp [LruCache.put, h]
  rw [hput]
  constructor
  · rintro ⟨w, hw⟩
    by_cases hk : k' = k
    · exact ⟨v, by rw [hk]; exact List.mem_cons_self _ _⟩
    · exact ⟨w, List.mem_cons_of_mem _ (mem_removeKey.mpr ⟨hw, by simpa using hk⟩)⟩
  · rintro ⟨w, hw⟩
    rcases List.mem_cons.mp hw with h1 | h2
    · obtain ⟨w0, hw0⟩ := lookup_isSome_iff.mp h
      have hk : k' = k := congrArg Prod.fst h1
      exact ⟨w0, by rw [hk]; exact hw0⟩
    · exact ⟨w, (mem_removeKey.mp h2).1⟩

/-! ## Claims -/

/-- Claim C7: starting from an empty capacity-2 cache, put(A), put(B),
put(C), then get(A), then put(D): the entry evicted by the insertion of
D is B, not A (A was already evicted by C, so the get(A) is a miss and
promotes nothing). -/
theorem claim_C7 :
    (runOps (LruCache.mk 2 ([] : List (Path × Image)))
        [.put "A" 1, .put "B" 2, .put "C" 3, .get "A"]).entries =
      [("C", 3), ("B", 2)] ∧
    ((runOps (LruCache.mk 2 ([] : List (Path × Image)))
        [.put "A" 1, .put "B" 2, .put "C" 3, .get "A"]).put "D" 4).entries =
      [("D", 4), ("C", 3)] ∧
    lookup "B" (runOps (LruCache.mk 2 ([] : List (Path × Image)))
        [.put "A" 1, .put "B" 2, .put "C" 3, .get "A"]).entries = some 2 ∧
    lookup "B" ((runOps (LruCache.mk 2 ([] : List (Path × Image)))
        [.put "A" 1, .put "B" 2, .put "C" 3, .get "A"]).put "D" 4).entries = none ∧
    lookup "A" (runOps (LruCache.mk 2 ([] : List (Path × Image)))
        [.put "A" 1, .put "B" 2, .put "C" 3, .get "A"]).entries = none := by
  decide

/-- Claim C2: the image cache has capacity 5; over every sequence of
get/put operations its size never exceeds 5; a put of a new key into a
full cache evicts exactly the tail entry, which is the entry touched
longest ago, leaving the size at 5; a put of an already-present key
evicts nothing (key set unchanged). -/
theorem claim_C2 (ops : List (CacheOp Path Image)) (knew kold : Path) (v : Image)
    (hmiss : lookup knew (runT (initT 5) ops).cache.entries = none)
    (hfull : (runT (initT 5) ops).cache.entries.length = 5)
    (hhit : (lookup kold (runT (initT 5) ops).cache.entries).isSome) :
    FeriteApp.default.image_cache.cap = 5 ∧
    (∀ ops' : List (CacheOp Path Image),
        (runOps FeriteApp.default.image_cache ops').entries.length ≤ 5) ∧
    ((runT (initT 5) ops).cache.put knew v).entries =
      (knew, v) :: (runT (initT 5) ops).cache.entries.dropLast ∧
    ((runT (initT 5) ops).cache.put knew v).entries.length = 5 ∧
    (∀ hne : (runT (initT 5) ops).cache.entries ≠ [],
        ∀ e ∈ (runT (initT 5) ops).cache.entries.dropLast,
          (runT (initT 5) ops).touch
              ((runT (initT 5) ops).cache.entries.getLast hne).1 <
            (runT (initT 5) ops).touch e.1) ∧
    (∀ k' : Path, (∃ w, (k', w) ∈ (runT (initT 5) ops).cache.entries) ↔
        ∃ w, (k', w) ∈ ((runT (initT 5) ops).cache.put kold v).entries) := by
  have hcap : (runT (initT (K := Path) (V := Image) 5) ops).cache.cap = 5 := by
    rw [runT_cache]
    exact cap_runOps ops _
  have hfull' : (runT (initT (K := Path) (V := Image) 5) ops).cache.entries.length =
      (runT (initT (K := Path) (V := Image) 5) ops).cache.cap := by
    rw [hcap, hfull]
  have hevict := put_full_new (c := (runT (initT 5) ops).cache) (k := knew) v
    hmiss hfull'
  refine ⟨rfl, ?_, hevict, ?_, ?_, ?_⟩
  · intro ops'
    exact length_runOps ops' FeriteApp.default.image_cache (by decide) (by decide)
  · rw [hevict]
    simp only [List.length_cons, List.length_dropLast, hfull]
  · intro hne e he
    exact getLast_touch_min (goodT_runT ops _ (goodT_initT 5)) hne e he
  · intro k'
    exact put_mem_iff v hhit k'

/-- Witness for claim C2: a concrete run of five distinct puts fills the
cache; putting a sixth key evicts exactly the tail entry, and putting an
existing key preserves the key set. -/
theorem claim_C2_witness :
    ((runT (initT 5) [.put "a" 1, .put "b" 2, .put "c" 3, .put "d" 4,
        .put "e" 5]).cache.put "f" 9).entries =
      ("f", (9 : Image)) :: (runT (initT 5) [.put "a" 1, .put "b" 2, .put "c" 3,
        .put "d" 4, .put "e" 5]).cache.entries.dropLast ∧
    (∀ k' : Path,
        (∃ w, (k', w) ∈ (runT (initT 5) [.put "a" 1, .put "b" 2, .put "c" 3,
            .put "d" 4, .put "e" 5]).cache.entries) ↔
        ∃ w, (k', w) ∈ ((runT (initT 5) [.put "a" 1, .put "b" 2, .put "c" 3,
            .put "d" 4, .put "e" 5]).cache.put "e" 9).entries) := by
  have h := claim_C2 [.put "a" 1, .put "b" 2, .put "c" 3, .put "d" 4, .put "e" 5]
    "f" "e" 9 (by decide) (by decide) (by decide)
  exact ⟨h.2.2.1, h.2.2.2.2.2⟩

/-! ## load_image unfolding lemmas -/

theorem lookup_cons_self {k : K} {v : V} {l : List (K × V)} :
    lookup k ((k, v) :: l) = some v := by
  simp [lookup]

theorem put_new_cons {c : LruCache K V} {k : K} (v : V)
    (hmiss : lookup k c.entries = none) :
    ∃ tail, (c.put k v).entries = (k, v) :: tail := by
  have h1 : (lookup k c.entries).isSome = false := by rw [hmiss]; rfl
  by_cases h2 : c.entries.length = c.cap
  · exact ⟨c.entries.dropLast, by simp [LruCache.put, h1, h2]⟩
  · exact ⟨c.entries, by simp [LruCache.put, h1, h2]⟩

theorem load_image_hit (app : FeriteApp) (d : Path → Option Image) (p : Path)
    (img : Image) (hl : lookup p app.image_cache.entries = some img) :
    app.load_image d p =
      LoadResult.mk
        { app with
          image_cache := LruCache.mk app.image_cache.cap
            ((p, img) :: removeKey p app.image_cache.entries)
          current_image := some (ImageData.mk none img)
          current_path := some p }
        .hitDisplayed 0 := by
  simp [FeriteApp.load_image, LruCache.getOp, hl]

theorem load_image_miss_ok (app : FeriteApp) (d : Path → Option Image) (p : Path)
    (img : Image) (hl : lookup p app.image_cache.entries = none)
    (hd : d p = some img) :
    app.load_image d p =
      LoadResult.mk
        { app with
          image_cache := app.image_cache.put p img
          current_image := some (ImageData.mk none img)
          current_path := some p
          zoom_level := 1
          drag_offset := Vec2.ZERO }
        .decodedDisplayed 1 := by
  simp [FeriteApp.load_image, LruCache.getOp, hl, hd]

theorem load_image_miss_fail (app : FeriteApp) (d : Path → Option Image)
    (p : Path) (hl : lookup p app.image_cache.entries = none)
    (hd : d p = none) :
    app.load_image d p = LoadResult.mk app .decodeFailed 1 := by
  simp [FeriteApp.load_image, LruCache.getOp, hl, hd]

/-- Claim C4: a cache hit bypasses the decode collaborator: when the
path is present in the cache, load_image makes zero decode calls, its
result does not depend on the decode function at all, and loading the
same path twice in a row decodes at most once (the second call makes
zero decode calls). -/
theorem claim_C4 (app : FeriteApp) (decode : Path → Option Image) (p : Path)
    (hhit : (lookup p app.image_cache.entries).isSome) :
    (app.load_image decode p).decodeCalls = 0 ∧
    (app.load_image decode p).outcome = .hitDisplayed ∧
    (∀ decode' : Path → Option Image,
        app.load_image decode' p = app.load_image decode p) ∧
    (∀ (decode' : Path → Option Image) (app2 : FeriteApp) (p2 : Path),
        (app2.load_image decode' p2).outcome ≠ .decodeFailed →
        ((app2.load_image decode' p2).app.load_image decode' p2).decodeCalls = 0) := by
  cases hl : lookup p app.image_cache.entries with
  | none => rw [hl] at hhit; cases hhit
  | some img =>
      refine ⟨?_, ?_, ?_, ?_⟩
      · rw [load_image_hit app decode p img hl]
      · rw [load_image_hit app decode p img hl]
      · intro decode'
        rw [load_image_hit app decode p img hl, load_image_hit app decode' p img hl]
      · intro decode' app2 p2 hne
        cases hl2 : lookup p2 app2.image_cache.entries with
        | some img2 =>
            rw [load_image_hit app2 decode' p2 img2 hl2]
            rw [load_image_hit _ decode' p2 img2 (by exact lookup_cons_self)]
        | none =>
            cases hd2 : decode' p2 with
            | none =>
                rw [load_image_miss_fail app2 decode' p2 hl2 hd2] at hne
                exact absurd rfl hne
            | some img2 =>
                rw [load_image_miss_ok app2 decode' p2 img2 hl2 hd2]
                obtain ⟨tail, htail⟩ := put_new_cons (c := app2.image_cache) img2 hl2
                rw [load_image_hit _ decode' p2 img2 (by rw [htail]; exact lookup_cons_self)]

/-- Witness for claim C4: with a.png preloaded, loading it makes no
decode call regardless of the decode function, and a fresh decode of
b.png followed by a reload decodes only once. -/
theorem claim_C4_witness :
    ((FeriteApp.mk (LruCache.mk 5 [("a.png", 7)]) none none 1 Vec2.ZERO
        false).load_image (fun _ => none) "a.png").decodeCalls = 0 ∧
    (((FeriteApp.default.load_image (fun _ => some 3) "b.png").app.load_image
        (fun _ => some 3) "b.png").decodeCalls = 0) := by
  have h := claim_C4 (FeriteApp.mk (LruCache.mk 5 [("a.png", 7)]) none none 1
    Vec2.ZERO false) (fun _ => none) "a.png" (by decide)
  exact ⟨h.1, h.2.2.2 (fun _ => some 3) FeriteApp.default "b.png" (by decide)⟩

/-- Claim C6: a load whose decode attempt fails changes nothing: the
whole application state (cache, current image, current path, zoom,
offset) is exactly what it was before the call. -/
theorem claim_C6 (app : FeriteApp) (decode : Path → Option Image) (p : Path)
    (hfail : (app.load_image decode p).outcome = .decodeFailed) :
    (app.load_image decode p).app = app := by
  cases hl : lookup p app.image_cache.entries with
  | some img =>
      rw [load_image_hit app decode p img hl] at hfail
      cases hfail
  | none =>
      cases hd : decode p with
      | some img =>
          rw [load_image_miss_ok app decode p img hl hd] at hfail
          cases hfail
      | none => rw [load_image_miss_fail app decode p hl hd]

/-- Witness for claim C6: a failing decode on a fresh path leaves the
default state untouched. -/
theorem claim_C6_witness :
    ((FeriteApp.default.load_image (fun _ => none) "x.png").app =
      FeriteApp.default) :=
  claim_C6 FeriteApp.default (fun _ => none) "x.png" (by decide)

/-- A zoomed and panned state whose cache already holds a.png. -/
def appZoomed : FeriteApp :=
  FeriteApp.mk (LruCache.mk 5 [("a.png", 7)])
    (some (ImageData.mk none 7)) (some "a.png") 2 (Vec2.mk 3 4) false

/-- Claim C1 counterexample: with a.png cached and the view zoomed to 2,
loading a.png again succeeds via the cache-hit branch, yet the zoom
level is still 2 - the transform is not reset to identity on a hit. -/
theorem claim_C1_counterexample :
    (appZoomed.load_image (fun _ => none) "a.png").outcome = .hitDisplayed ∧
    ¬((appZoomed.load_image (fun _ => none) "a.png").app.zoom_level = 1 ∧
      (appZoomed.load_image (fun _ => none) "a.png").app.drag_offset =
        Vec2.ZERO) := by
  refine ⟨by decide, ?_⟩
  intro h
  exact absurd h.1 (by decide)

/-- Claim C1 (amended): after a successful load the derived texture is
always cleared; the transform is reset to identity only by the
fresh-decode branch, while the cache-hit branch leaves zoom and offset
at their prior values. -/
theorem claim_C1 (app : FeriteApp) (decode : Path → Option Image) (p : Path) :
    ((app.load_image decode p).outcome = .decodedDisplayed →
      (app.load_image decode p).app.zoom_level = 1 ∧
      (app.load_image decode p).app.drag_offset = Vec2.ZERO ∧
      (app.load_image decode p).app.current_path = some p ∧
      ∃ img, (app.load_image decode p).app.current_image =
        some (ImageData.mk none img)) ∧
    ((app.load_image decode p).outcome = .hitDisplayed →
      (app.load_image decode p).app.zoom_level = app.zoom_level ∧
      (app.load_image decode p).app.drag_offset = app.drag_offset ∧
      (app.load_image decode p).app.current_path = some p ∧
      ∃ img, (app.load_image decode p).app.current_image =
        some (ImageData.mk none img)) := by
  cases hl : lookup p app.image_cache.entries with
  | some img =>
      rw [load_image_hit app decode p img hl]
      constructor
      · intro h
        exact LoadOutcome.noConfusion h
      · intro h
        exact ⟨rfl, rfl, rfl, img, rfl⟩
  | none =>
      cases hd : decode p with
      | some img =>
          rw [load_image_miss_ok app decode p img hl hd]
          constructor
          · intro h
            exact ⟨rfl, rfl, rfl, img, rfl⟩
          · intro h
            exact LoadOutcome.noConfusion h
      | none =>
          rw [load_image_miss_fail app decode p hl hd]
          constructor
          · intro h
            exact LoadOutcome.noConfusion h
          · intro h
            exact LoadOutcome.noConfusion h

/-- Witness for claim C1: a fresh decode from the zoomed state resets
the transform, while a cache hit from the same state keeps zoom 2. -/
theorem claim_C1_witness :
    ((appZoomed.load_image (fun _ => some 9) "b.png").app.zoom_level = 1 ∧
      (appZoomed.load_image (fun _ => some 9) "b.png").app.drag_offset =
        Vec2.ZERO ∧
      (appZoomed.load_image (fun _ => some 9) "b.png").app.current_path =
        some "b.png" ∧
      ∃ img, (appZoomed.load_image (fun _ => some 9) "b.png").app.current_image =
        some (ImageData.mk none img)) ∧
    ((appZoomed.load_image (fun _ => some 9) "a.png").app.zoom_level =
        appZoomed.zoom_level ∧
      (appZoomed.load_image (fun _ => some 9) "a.png").app.drag_offset =
        appZoomed.drag_offset ∧
      (appZoomed.load_image (fun _ => some 9) "a.png").app.current_path =
        some "a.png" ∧
      ∃ img, (appZoomed.load_image (fun _ => some 9) "a.png").app.current_image =
        some (ImageData.mk none img)) :=
  ⟨(claim_C1 appZoomed (fun _ => some 9) "b.png").1 (by decide),
   (claim_C1 appZoomed (fun _ => some 9) "a.png").2 (by decide)⟩

/-- A state whose cache still holds gone.png even though the file no
longer exists on disk (every decode attempt fails); x is the
most-recently-used entry. -/
def appStale : FeriteApp :=
  FeriteApp.mk (LruCache.mk 5 [("x", 1), ("gone.png", 2)])
    none none 1 Vec2.ZERO false

/-- Claim C3 counterexample: load_image performs no filesystem existence
check. With gone.png cached but absent from disk (decode fails on every
path), loading it is served from the cache as a success - not a
NotFound - and the cache is touched: the hit reorders the recency
list. -/
theorem claim_C3_counterexample :
    (appStale.load_image (fun _ => none) "gone.png").outcome = .hitDisplayed ∧
    (appStale.load_image (fun _ => none) "gone.png").app.image_cache ≠
      appStale.image_cache := by
  refine ⟨by decide, ?_⟩
  intro h
  have := congrArg (fun c => c.entries) h
  exact absurd this (by decide)

/-- Claim C3 (amended): load_image itself never consults the
filesystem: the cache lookup comes first and a hit skips the decode
entirely; an uncached path goes straight to the decode attempt, whose
failure (the code's only signal for a missing file) leaves the state
unchanged. The existence check happens only in FeriteApp::new, which
refuses to call load_image for a missing initial path. -/
theorem claim_C3 :
    (∀ (app : FeriteApp) (d : Path → Option Image) (p : Path),
        (lookup p app.image_cache.entries).isSome →
        (app.load_image d p).outcome = .hitDisplayed ∧
        (app.load_image d p).decodeCalls = 0) ∧
    (∀ (app : FeriteApp) (d : Path → Option Image) (p : Path),
        lookup p app.image_cache.entries = none → d p = none →
        app.load_image d p = LoadResult.mk app .decodeFailed 1) ∧
    (∀ (d : Path → Option Image) (exists_fs : Path → Bool) (p : Path),
        exists_fs p = false →
        FeriteApp.new d exists_fs (some p) = FeriteApp.default) := by
  refine ⟨?_, ?_, ?_⟩
  · intro app d p hhit
    cases hl : lookup p app.image_cache.entries with
    | none => rw [hl] at hhit; cases hhit
    | some img => rw [load_image_hit app d p img hl]; exact ⟨rfl, rfl⟩
  · intro app d p hl hd
    exact load_image_miss_fail app d p hl hd
  · intro d exists_fs p hfp
    simp [FeriteApp.new, hfp]

/-- Witness for claim C3: a hit on the stale entry makes no decode
call; an uncached missing path fails without touching the state; new
with a missing initial path stays at the default state. -/
theorem claim_C3_witness :
    ((appStale.load_image (fun _ => none) "gone.png").outcome = .hitDisplayed ∧
      (appStale.load_image (fun _ => none) "gone.png").decodeCalls = 0) ∧
    appStale.load_image (fun _ => none) "missing.png" =
      LoadResult.mk appStale .decodeFailed 1 ∧
    FeriteApp.new (fun _ => none) (fun _ => false) (some "missing.png") =
      FeriteApp.default :=
  ⟨claim_C3.1 appStale (fun _ => none) "gone.png" (by decide),
   claim_C3.2.1 appStale (fun _ => none) "missing.png" (by decide) rfl,
   claim_C3.2.2 (fun _ => none) (fun _ => false) "missing.png" rfl⟩

/-- A state in which the cache associates a.png with pixels 2 while the
retained copy in current_image holds pixels 1. -/
def appMismatch : FeriteApp :=
  FeriteApp.mk (LruCache.mk 5 [("a.png", 2)])
    (some (ImageData.mk none 1)) (some "a.png") 1 Vec2.ZERO false

/-- Claim C5 counterexample: on a render pass with the texture absent,
the texture is synthesized from the retained copy (pixels 1), not from
the value the cache currently associates with the active key
(pixels 2). -/
theorem claim_C5_counterexample :
    appMismatch.current_path = some "a.png" ∧
    lookup "a.png" appMismatch.image_cache.entries = some 2 ∧
    appMismatch.synthesizeTexture.current_image =
      some (ImageData.mk (some 1) 1) ∧
    (1 : Image) ≠ 2 := by
  refine ⟨rfl, by decide, by decide, by decide⟩

/-- Claim C5 (amended): the texture is synthesized from the clone
retained in current_image.original; the cache is not consulted during
rendering, so the synthesized pixels are independent of what the cache
currently associates with the active key. -/
theorem claim_C5 (app : FeriteApp) (img : Image)
    (habs : app.current_image = some (ImageData.mk none img)) :
    app.synthesizeTexture.current_image = some (ImageData.mk (some img) img) ∧
    ∀ cache' : LruCache Path Image,
      (FeriteApp.mk cache' app.current_image app.current_path app.zoom_level
          app.drag_offset app.show_performance).synthesizeTexture.current_image =
        app.synthesizeTexture.current_image := by
  constructor
  · simp [FeriteApp.synthesizeTexture, habs]
  · intro cache'
    simp [FeriteApp.synthesizeTexture, habs]

/-- Witness for claim C5: in the mismatched state the synthesis uses the
retained pixels 1 and is unchanged when the cache is replaced by an
empty one. -/
theorem claim_C5_witness :
    appMismatch.synthesizeTexture.current_image =
      some (ImageData.mk (some 1) 1) ∧
    (FeriteApp.mk (LruCache.mk 5 []) appMismatch.current_image
        appMismatch.current_path appMismatch.zoom_level
        appMismatch.drag_offset
        appMismatch.show_performance).synthesizeTexture.current_image =
      appMismatch.synthesizeTexture.current_image :=
  ⟨(claim_C5 appMismatch 1 rfl).1, (claim_C5 appMismatch 1 rfl).2 (LruCache.mk 5 [])⟩

/-! ## Scroll-event folding and cache-op application -/

def FeriteApp.applyScrollEvents (app : FeriteApp)
    (evs : List (ℚ × Option Vec2 × Vec2)) : FeriteApp :=
  evs.foldl (fun a ev => a.applyScroll ev.1 ev.2.1 ev.2.2) app

def FeriteApp.applyCacheOps (app : FeriteApp)
    (ops : List (CacheOp Path Image)) : FeriteApp :=
  FeriteApp.mk (runOps app.image_cache ops) app.current_image app.current_path
    app.zoom_level app.drag_offset app.show_performance

theorem clampQ_bounds (x : ℚ) :
    1 / 10 ≤ clampQ x (1 / 10) 10 ∧ clampQ x (1 / 10) 10 ≤ 10 :=
  ⟨le_max_left _ _, max_le (by norm_num) (min_le_right _ _)⟩

theorem applyScroll_zoom (app : FeriteApp) (d : ℚ) (ptr : Option Vec2)
    (ctr : Vec2) (hd : d ≠ 0) :
    (app.applyScroll d ptr ctr).zoom_level =
      clampQ (app.zoom_level * (1 - d * (1 / 1000))) (1 / 10) 10 := by
  cases ptr <;> simp [FeriteApp.applyScroll, hd]

theorem applyScroll_zoom_bounds (app : FeriteApp) (d : ℚ) (ptr : Option Vec2)
    (ctr : Vec2) (h1 : 1 / 10 ≤ app.zoom_level) (h2 : app.zoom_level ≤ 10) :
    1 / 10 ≤ (app.applyScroll d ptr ctr).zoom_level ∧
      (app.applyScroll d ptr ctr).zoom_level ≤ 10 := by
  by_cases hd : d = 0
  · have h : app.applyScroll d ptr ctr = app := by simp [FeriteApp.applyScroll, hd]
    rw [h]
    exact ⟨h1, h2⟩
  · rw [applyScroll_zoom app d ptr ctr hd]
    exact clampQ_bounds _

theorem applyScrollEvents_bounds (evs : List (ℚ × Option Vec2 × Vec2))
    (app : FeriteApp) (h1 : 1 / 10 ≤ app.zoom_level)
    (h2 : app.zoom_level ≤ 10) :
    1 / 10 ≤ (app.applyScrollEvents evs).zoom_level ∧
      (app.applyScrollEvents evs).zoom_level ≤ 10 := by
  induction evs generalizing app with
  | nil => exact ⟨h1, h2⟩
  | cons ev evs ih =>
      have hstep := applyScroll_zoom_bounds app ev.1 ev.2.1 ev.2.2 h1 h2
      exact ih (app.applyScroll ev.1 ev.2.1 ev.2.2) hstep.1 hstep.2

theorem applyScroll_current_image (app : FeriteApp) (d : ℚ)
    (ptr : Option Vec2) (ctr : Vec2) :
    (app.applyScroll d ptr ctr).current_image = app.current_image := by
  by_cases hd : d = 0 <;> cases ptr <;> simp [FeriteApp.applyScroll, hd]

theorem synthesizeTexture_original (app : FeriteApp) :
    app.synthesizeTexture.current_image.map (fun i => i.original) =
      app.current_image.map (fun i => i.original) := by
  cases himg : app.current_image with
  | none => simp [FeriteApp.synthesizeTexture, himg]
  | some image_data =>
      cases ht : image_data.texture <;>
        simp [FeriteApp.synthesizeTexture, himg, ht]

theorem applyDrag_current_image (app : FeriteApp) (dd : Option Vec2) :
    (app.applyDrag dd).current_image = app.current_image := by
  cases h : app.current_image <;> cases dd <;> simp [FeriteApp.applyDrag, h]

/-- Claim C8: handle_files_dropped considers only the first dropped
path; it is loaded exactly when its lowercased extension is in the
allow-list {jpg, jpeg, png, gif, bmp}; in particular the drop
[a.txt, b.png] loads nothing. -/
theorem claim_C8 :
    (∀ (d : Path → Option Image) (app : FeriteApp) (p : Path)
        (rest : List Path),
        app.handle_files_dropped d (p :: rest) =
          app.handle_files_dropped d [p]) ∧
    (∀ (d : Path → Option Image) (app : FeriteApp) (p : Path)
        (rest : List Path), extension p = none →
        app.handle_files_dropped d (p :: rest) = app) ∧
    (∀ (d : Path → Option Image) (app : FeriteApp) (p : Path)
        (rest : List Path) (e : String), extension p = some e →
        toLowercase e ∉ SUPPORTED_EXTENSIONS →
        app.handle_files_dropped d (p :: rest) = app) ∧
    (∀ (d : Path → Option Image) (app : FeriteApp) (p : Path)
        (rest : List Path) (e : String), extension p = some e →
        toLowercase e ∈ SUPPORTED_EXTENSIONS →
        app.handle_files_dropped d (p :: rest) = (app.load_image d p).app) ∧
    (∀ (d : Path → Option Image) (app : FeriteApp),
        app.handle_files_dropped d ["a.txt", "b.png"] = app) := by
  refine ⟨?_, ?_, ?_, ?_, ?_⟩
  · intro d app p rest
    rfl
  · intro d app p rest he
    simp [FeriteApp.handle_files_dropped, he]
  · intro d app p rest e he hc
    simp [FeriteApp.handle_files_dropped, he, hc]
  · intro d app p rest e he hc
    simp [FeriteApp.handle_files_dropped, he, hc]
  · intro d app
    have he : extension "a.txt" = some "txt" := by decide
    have hc : toLowercase "txt" ∉ SUPPORTED_EXTENSIONS := by decide
    simp [FeriteApp.handle_files_dropped, he, hc]

/-- Witness for claim C8: b.png alone is loaded; a.txt followed by
b.png loads nothing; a path with no extension loads nothing. -/
theorem claim_C8_witness :
    FeriteApp.default.handle_files_dropped (fun _ => some 3) ["b.png"] =
      (FeriteApp.default.load_image (fun _ => some 3) "b.png").app ∧
    FeriteApp.default.handle_files_dropped (fun _ => some 3)
      ["a.txt", "b.png"] = FeriteApp.default ∧
    FeriteApp.default.handle_files_dropped (fun _ => some 3)
      ["noext", "b.png"] = FeriteApp.default :=
  ⟨claim_C8.2.2.2.1 (fun _ => some 3) FeriteApp.default "b.png" [] "png"
      (by decide) (by decide),
   claim_C8.2.2.1 (fun _ => some 3) FeriteApp.default "a.txt" ["b.png"] "txt"
      (by decide) (by decide),
   claim_C8.2.1 (fun _ => some 3) FeriteApp.default "noext" ["b.png"]
      (by decide)⟩

/-- Claim C9: a processed scroll delta d sets the zoom to
clamp(zoom * (1 - d/1000), 1/10, 10); from the default state any
sequence of scroll events keeps the zoom within [1/10, 10]; a large
delta pins the zoom to exactly 10 (scrolling one way) or exactly 1/10
(the other way), and it stays pinned. -/
theorem claim_C9 :
    (∀ (app : FeriteApp) (d : ℚ) (ptr : Option Vec2) (ctr : Vec2), d ≠ 0 →
        (app.applyScroll d ptr ctr).zoom_level =
          clampQ (app.zoom_level * (1 - d * (1 / 1000))) (1 / 10) 10) ∧
    (∀ evs : List (ℚ × Option Vec2 × Vec2),
        1 / 10 ≤ (FeriteApp.default.applyScrollEvents evs).zoom_level ∧
        (FeriteApp.default.applyScrollEvents evs).zoom_level ≤ 10) ∧
    (∀ (app : FeriteApp) (ptr : Option Vec2) (ctr : Vec2),
        1 / 10 ≤ app.zoom_level → app.zoom_level ≤ 10 →
        (app.applyScroll (-100000) ptr ctr).zoom_level = 10 ∧
        (app.applyScroll 100000 ptr ctr).zoom_level = 1 / 10) := by
  refine ⟨?_, ?_, ?_⟩
  · intro app d ptr ctr hd
    exact applyScroll_zoom app d ptr ctr hd
  · intro evs
    exact applyScrollEvents_bounds evs FeriteApp.default (by norm_num [FeriteApp.default])
      (by norm_num [FeriteApp.default])
  · intro app ptr ctr h1 h2
    constructor
    · rw [applyScroll_zoom app (-100000) ptr ctr (by norm_num)]
      have hf : (1 : ℚ) - (-100000) * (1 / 1000) = 101 := by norm_num
      rw [hf]
      have hmin : min (app.zoom_level * 101) 10 = 10 :=
        min_eq_right (by nlinarith)
      rw [clampQ, hmin]
      exact max_eq_right (by norm_num)
    · rw [applyScroll_zoom app 100000 ptr ctr (by norm_num)]
      have hf : (1 : ℚ) - 100000 * (1 / 1000) = -99 := by norm_num
      rw [hf]
      have hmin : min (app.zoom_level * -99) 10 = app.zoom_level * -99 :=
        min_eq_left (by nlinarith)
      rw [clampQ, hmin]
      exact max_eq_left (by nlinarith)

/-- Witness for claim C9: a delta of 500 from the default state scales
the zoom by the clamped factor, and from zoom 2 the large deltas pin
the zoom to the bounds. -/
theorem claim_C9_witness :
    (FeriteApp.default.applyScroll 500 none Vec2.ZERO).zoom_level =
      clampQ (FeriteApp.default.zoom_level * (1 - 500 * (1 / 1000)))
        (1 / 10) 10 ∧
    (appZoomed.applyScroll (-100000) none Vec2.ZERO).zoom_level = 10 ∧
    (appZoomed.applyScroll 100000 none Vec2.ZERO).zoom_level = 1 / 10 := by
  refine ⟨claim_C9.1 FeriteApp.default 500 none Vec2.ZERO (by norm_num), ?_, ?_⟩
  · exact (claim_C9.2.2 appZoomed none Vec2.ZERO (by norm_num [appZoomed])
      (by norm_num [appZoomed])).1
  · exact (claim_C9.2.2 appZoomed none Vec2.ZERO (by norm_num [appZoomed])
      (by norm_num [appZoomed])).2

/-- Claim C10: a successful fresh load stores the decoded image both in
the cache and as an independent clone in current_image; cache
operations applied afterwards never change current_image, and a render
pass never changes the displayed pixel data - only load_image can. -/
theorem claim_C10 :
    (∀ (app : FeriteApp) (d : Path → Option Image) (p : Path) (img : Image),
        lookup p app.image_cache.entries = none → d p = some img →
        (app.load_image d p).app.current_image = some (ImageData.mk none img) ∧
        lookup p (app.load_image d p).app.image_cache.entries = some img) ∧
    (∀ (app : FeriteApp) (ops : List (CacheOp Path Image)),
        (app.applyCacheOps ops).current_image = app.current_image) ∧
    (∀ (app : FeriteApp) (sd : ℚ) (ptr : Option Vec2) (ctr : Vec2)
        (dd : Option Vec2),
        (app.render_image sd ptr ctr dd).current_image.map
            (fun i => i.original) =
          app.current_image.map (fun i => i.original)) := by
  refine ⟨?_, ?_, ?_⟩
  · intro app d p img hl hd
    rw [load_image_miss_ok app d p img hl hd]
    obtain ⟨tail, htail⟩ := put_new_cons (c := app.image_cache) img hl
    exact ⟨rfl, by rw [htail]; exact lookup_cons_self⟩
  · intro app ops
    rfl
  · intro app sd ptr ctr dd
    rw [FeriteApp.render_image, applyDrag_current_image,
      synthesizeTexture_original, applyScroll_current_image]

/-- Witness for claim C10: decoding c.png stores pixels 4 both in the
cache and in the retained clone. -/
theorem claim_C10_witness :
    (FeriteApp.default.load_image (fun _ => some 4) "c.png").app.current_image =
      some (ImageData.mk none 4) ∧
    lookup "c.png" (FeriteApp.default.load_image
        (fun _ => some 4) "c.png").app.image_cache.entries = some 4 :=
  claim_C10.1 FeriteApp.default (fun _ => some 4) "c.png" 4 (by decide) rfl

end Ferrite
